import Mathlib

/-!
Verification of the chunking pipeline of the rag-pipeline repository.

The definitions below are a shallow embedding of the TypeScript source:
* `approxTokenCount`, `buildOverlappedWindows` from `scripts/02_chunk_markdown.ts`
  (the window builder, lines 81-160);
* the chunk-record assembly loop of `main` in `scripts/02_chunk_markdown.ts`
  (lines 214-285);
* the line-processing / batching loop of `main` in `scripts/04_ingest_pg.ts`
  (lines 273-349).

JavaScript `while` loops are embedded as structurally recursive functions with
an explicit fuel argument; the canonical fuel values used by the wrappers are
proved sufficient (see the fuel-stability lemmas), which is exactly the
termination bound claimed by the spec.
-/

namespace RagPipeline

/-- Whitespace characters (model of the JS regular-expression class `\s`,
restricted to the ASCII whitespace that `Char.isWhitespace` covers). -/
def wsChar (c : Char) : Bool := c.isWhitespace

/-- Strip leading and trailing whitespace from a character list
(model of JS `String.prototype.trim`). -/
def trimChars (l : List Char) : List Char :=
  ((l.dropWhile wsChar).reverse.dropWhile wsChar).reverse

/-- JS `String.prototype.trim` as a computable string function. -/
def trimStr (s : String) : String :=
  String.mk (trimChars s.data)

/-- Split a character list on runs of whitespace, returning the maximal
whitespace-free segments (model of JS `split(/\s+/)` applied to a trimmed
string, which never produces empty segments). `acc` holds the reversed
prefix of the segment currently being read. -/
def splitWsRuns : List Char → List Char → List (List Char)
  | [], acc => if acc.isEmpty then [] else [acc.reverse]
  | c :: cs, acc =>
    if wsChar c then
      if acc.isEmpty then splitWsRuns cs [] else acc.reverse :: splitWsRuns cs []
    else splitWsRuns cs (c :: acc)

/-- `approxTokenCount` from `02_chunk_markdown.ts` lines 81-87: trim, return 0
for an all-whitespace string, otherwise the number of whitespace-separated
words. -/
def approxTokenCount (s : String) : Nat :=
  if (trimChars s.data).isEmpty then 0
  else (splitWsRuns (trimChars s.data) []).length

/-- One output window of the window builder
(`{ start, endExclusive, text, approxTokens }`). -/
structure Window where
  start : Nat
  endExclusive : Nat
  text : String
  approxTokens : Nat
deriving DecidableEq, Repr

/-- The candidate combined text after appending one more paragraph
(`02_chunk_markdown.ts` line 123: an empty `combined` is falsy, so the
blank-line separator is only inserted when `combined` is non-empty). -/
def nextCombined (c p : String) : String :=
  if c = "" then p else c ++ "\n\n" ++ p

/-- Inner accumulation loop of `buildOverlappedWindows`
(`02_chunk_markdown.ts` lines 122-133): starting from paragraph index `e`
with the combined text `c`, keep appending paragraphs (separated by a blank
line) while the token estimate allows it.  Returns the final
`(endExclusive, combined)` pair.  `fuel` bounds the number of iterations;
the canonical call uses `ps.length - start`, which is proved sufficient. -/
def fillAux (ps : List String) (maxTokens : Int) (start : Nat) :
    Nat → Nat → String → Nat × String
  | 0, e, c => (e, c)
  | fuel + 1, e, c =>
    if e < ps.length then
      if (approxTokenCount (nextCombined c (ps.getD e "")) : Int) > maxTokens ∧ start < e then
        (e, c)
      else if (approxTokenCount (nextCombined c (ps.getD e "")) : Int) ≥ maxTokens then
        (e + 1, nextCombined c (ps.getD e ""))
      else
        fillAux ps maxTokens start fuel (e + 1) (nextCombined c (ps.getD e ""))
    else (e, c)

/-- The inner loop launched at cursor `start` with empty combined text. -/
def fillWindow (ps : List String) (maxTokens : Int) (start : Nat) : Nat × String :=
  fillAux ps maxTokens start (ps.length - start) start ""

/-- The window emitted for the cursor position `start`
(`02_chunk_markdown.ts` lines 135-136). -/
def windowAt (ps : List String) (maxTokens : Int) (start : Nat) : Window :=
  ⟨start, (fillWindow ps maxTokens start).1, (fillWindow ps maxTokens start).2,
    approxTokenCount (fillWindow ps maxTokens start).2⟩

/-- Backward overlap walk (`02_chunk_markdown.ts` lines 147-153): walk
backward from `overlapStart` towards `start`, accumulating paragraph token
counts, until the accumulated overlap reaches `overlapTokens`.  The canonical
fuel is `overlapStart - start`. -/
def overlapWalkAux (ps : List String) (overlapTokens : Int) (start : Nat) :
    Nat → Nat → Nat → Nat
  | 0, overlapStart, _ => overlapStart
  | fuel + 1, overlapStart, overlapAccum =>
    if start < overlapStart then
      if (overlapAccum + approxTokenCount (ps.getD (overlapStart - 1) "") : Int)
          ≥ overlapTokens then
        overlapStart - 1
      else
        overlapWalkAux ps overlapTokens start fuel (overlapStart - 1)
          (overlapAccum + approxTokenCount (ps.getD (overlapStart - 1) ""))
    else overlapStart

/-- The next cursor after emitting the window at `start`
(`02_chunk_markdown.ts` lines 141-156): with zero overlap the next start is
exactly `endExclusive`; otherwise it is the overlap-walk result floored at
`start + 1` to guarantee progress. -/
def nextStart (ps : List String) (maxTokens overlapTokens : Int) (start : Nat) : Nat :=
  if overlapTokens = 0 then (fillWindow ps maxTokens start).1
  else
    max (overlapWalkAux ps overlapTokens start
          ((fillWindow ps maxTokens start).1 - start) (fillWindow ps maxTokens start).1 0)
      (start + 1)

/-- Outer `while (start < paragraphs.length)` loop of `buildOverlappedWindows`
(`02_chunk_markdown.ts` lines 117-157), with fuel.  The canonical fuel is
`ps.length`. -/
def buildLoopAux (ps : List String) (maxTokens overlapTokens : Int) :
    Nat → Nat → List Window
  | 0, _ => []
  | fuel + 1, start =>
    if start < ps.length then
      if ps.length ≤ (fillWindow ps maxTokens start).1 then
        [windowAt ps maxTokens start]
      else
        windowAt ps maxTokens start ::
          buildLoopAux ps maxTokens overlapTokens fuel
            (nextStart ps maxTokens overlapTokens start)
    else []

/-- `buildOverlappedWindows` from `02_chunk_markdown.ts` lines 103-160,
including the three fail-fast configuration checks (lines 110-113); the
thrown errors are embedded as `Except.error`. -/
def buildOverlappedWindows (ps : List String) (maxTokens overlapTokens : Int) :
    Except String (List Window) :=
  if maxTokens ≤ 0 then .error "--maxTokens must be > 0"
  else if overlapTokens < 0 then .error "--overlapTokens must be >= 0"
  else if overlapTokens ≥ maxTokens then
    .error "--overlapTokens must be < --maxTokens (otherwise windows cannot advance)"
  else .ok (buildLoopAux ps maxTokens overlapTokens ps.length 0)

/-- The blank-line joining of a paragraph list, in the left-associated order in
which `buildOverlappedWindows` accumulates its `combined` string. -/
def joinBlankLine : List String → String
  | [] => ""
  | p :: rest => rest.foldl (fun acc q => acc ++ "\n\n" ++ q) p

theorem joinBlankLine_append_singleton (l : List String) (x : String) :
    joinBlankLine (l ++ [x]) = if l = [] then x else joinBlankLine l ++ "\n\n" ++ x := by
  cases l with
  | nil => simp [joinBlankLine]
  | cons p rest => simp [joinBlankLine, List.foldl_append]

theorem append_blank_ne_empty (a b : String) : a ++ "\n\n" ++ b ≠ "" := by
  intro h
  have h1 := congrArg String.length h
  rw [String.length_append, String.length_append] at h1
  have h2 : ("\n\n" : String).length = 2 := rfl
  have h3 : ("" : String).length = 0 := rfl
  omega

theorem fillAux_fst_ge (ps : List String) (maxT : Int) (start : Nat) :
    ∀ fuel e c, e ≤ (fillAux ps maxT start fuel e c).1 := by
  intro fuel
  induction fuel with
  | zero => intro e c; exact le_refl e
  | succ n ih =>
    intro e c
    simp only [fillAux]
    split
    · split
      · exact le_refl e
      · split
        · exact Nat.le_succ e
        · exact le_trans (Nat.le_succ e) (ih (e + 1) _)
    · exact le_refl e

theorem fillAux_fst_le (ps : List String) (maxT : Int) (start : Nat) :
    ∀ fuel e c, e ≤ ps.length → (fillAux ps maxT start fuel e c).1 ≤ ps.length := by
  intro fuel
  induction fuel with
  | zero => intro e c he; exact he
  | succ n ih =>
    intro e c he
    simp only [fillAux]
    split
    · rename_i hlen
      split
      · exact he
      · split
        · exact hlen
        · exact ih (e + 1) _ hlen
    · exact he

theorem fillWindow_gt (ps : List String) (maxT : Int) (start : Nat)
    (h : start < ps.length) : start < (fillWindow ps maxT start).1 := by
  unfold fillWindow
  obtain ⟨k, hk⟩ : ∃ k, ps.length - start = k + 1 := ⟨ps.length - start - 1, by omega⟩
  rw [hk]
  simp only [fillAux]
  rw [if_pos h, if_neg (by simp)]
  split
  · exact Nat.lt_succ_self start
  · exact lt_of_lt_of_le (Nat.lt_succ_self start)
      (fillAux_fst_ge ps maxT start k (start + 1) _)

theorem fillWindow_le (ps : List String) (maxT : Int) (start : Nat)
    (h : start ≤ ps.length) : (fillWindow ps maxT start).1 ≤ ps.length :=
  fillAux_fst_le ps maxT start _ start "" h

theorem fillAux_budget (ps : List String) (maxT : Int) (start : Nat) :
    ∀ fuel e c,
      (start + 2 ≤ e → (approxTokenCount c : Int) ≤ maxT) →
      start + 2 ≤ (fillAux ps maxT start fuel e c).1 →
      (approxTokenCount (fillAux ps maxT start fuel e c).2 : Int) ≤ maxT := by
  intro fuel
  induction fuel with
  | zero => intro e c hc h; exact hc h
  | succ n ih =>
    intro e c hc
    simp only [fillAux]
    split
    · split
      · exact fun h => hc h
      · rename_i hlen hbreak
        split
        · rename_i hge
          intro h
          have h' : start + 2 ≤ e + 1 := h
          have hse : start < e := by omega
          have hng : ¬ ((approxTokenCount (nextCombined c (ps.getD e "")) : Int) > maxT) :=
            fun hgt => hbreak ⟨hgt, hse⟩
          show (approxTokenCount (nextCombined c (ps.getD e "")) : Int) ≤ maxT
          omega
        · rename_i hge
          refine ih (e + 1) _ (fun h2 => ?_)
          omega
    · exact fun h => hc h

/-- Invariant of the inner accumulation loop relating the combined text to the
paragraph slice already consumed (assuming all paragraphs are non-empty). -/
def fillInv (ps : List String) (start e : Nat) (c : String) : Prop :=
  (e = start ∧ c = "") ∨
  (start < e ∧ c ≠ "" ∧ c = joinBlankLine ((ps.drop start).take (e - start)))

theorem slice_snoc (ps : List String) (s e : Nat) (hse : s ≤ e) (he : e < ps.length) :
    (ps.drop s).take (e + 1 - s) = (ps.drop s).take (e - s) ++ [ps.getD e ""] := by
  have h1 : e + 1 - s = (e - s) + 1 := by omega
  have h2 : (ps.drop s)[e - s]? = some ps[e] := by
    rw [List.getElem?_drop]
    have h4 : s + (e - s) = e := by omega
    rw [h4, List.getElem?_eq_getElem he]
  have h3 : ps.getD e "" = ps[e] := by
    rw [List.getD_eq_getElem?_getD, List.getElem?_eq_getElem he]
    rfl
  rw [h1, List.take_succ, h2, h3]
  rfl

theorem getD_mem_of_lt (ps : List String) (e : Nat) (he : e < ps.length) :
    ps.getD e "" ∈ ps := by
  have h3 : ps.getD e "" = ps[e] := by
    rw [List.getD_eq_getElem?_getD, List.getElem?_eq_getElem he]
    rfl
  rw [h3]; exact List.getElem_mem he

theorem fillInv_step (ps : List String) (start e : Nat) (c : String)
    (hne : ∀ p ∈ ps, p ≠ "") (he : e < ps.length) (hinv : fillInv ps start e c) :
    fillInv ps start (e + 1) (nextCombined c (ps.getD e "")) := by
  have hmem : ps.getD e "" ∈ ps := getD_mem_of_lt ps e he
  rcases hinv with ⟨he1, hc1⟩ | ⟨he2, hc2, hc3⟩
  · subst he1; subst hc1
    refine Or.inr ⟨Nat.lt_succ_self e, ?_, ?_⟩
    · show nextCombined "" (ps.getD e "") ≠ ""
      simp only [nextCombined, if_pos rfl]
      exact hne _ hmem
    · have hsl : (ps.drop e).take (e + 1 - e) = [ps.getD e ""] := by
        have h := slice_snoc ps e e (le_refl e) he
        simpa using h
      rw [hsl]
      simp [nextCombined, joinBlankLine]
  · refine Or.inr ⟨by omega, ?_, ?_⟩
    · simp only [nextCombined, if_neg hc2]
      exact append_blank_ne_empty c _
    · simp only [nextCombined, if_neg hc2]
      rw [slice_snoc ps start e (by omega) he, joinBlankLine_append_singleton]
      have hslice : (ps.drop start).take (e - start) ≠ [] := by
        intro hnil
        rw [hnil] at hc3
        exact hc2 (by simpa [joinBlankLine] using hc3)
      rw [if_neg hslice, ← hc3]

theorem fillAux_inv (ps : List String) (maxT : Int) (start : Nat)
    (hne : ∀ p ∈ ps, p ≠ "") :
    ∀ fuel e c, fillInv ps start e c →
      fillInv ps start (fillAux ps maxT start fuel e c).1 (fillAux ps maxT start fuel e c).2 := by
  intro fuel
  induction fuel with
  | zero => intro e c h; exact h
  | succ n ih =>
    intro e c h
    simp only [fillAux]
    split
    · rename_i hlen
      split
      · exact h
      · split
        · exact fillInv_step ps start e c hne hlen h
        · exact ih (e + 1) _ (fillInv_step ps start e c hne hlen h)
    · exact h

theorem overlapWalkAux_le (ps : List String) (ovT : Int) (start : Nat) :
    ∀ fuel os acc, overlapWalkAux ps ovT start fuel os acc ≤ os := by
  intro fuel
  induction fuel with
  | zero => intro os acc; exact le_refl os
  | succ n ih =>
    intro os acc
    simp only [overlapWalkAux]
    split
    · split
      · exact Nat.sub_le os 1
      · exact le_trans (ih (os - 1) _) (Nat.sub_le os 1)
    · exact le_refl os

theorem overlapWalkAux_ge (ps : List String) (ovT : Int) (start : Nat) :
    ∀ fuel os acc, start ≤ os → start ≤ overlapWalkAux ps ovT start fuel os acc := by
  intro fuel
  induction fuel with
  | zero => intro os acc h; exact h
  | succ n ih =>
    intro os acc h
    simp only [overlapWalkAux]
    split
    · rename_i hgt
      split
      · omega
      · exact ih (os - 1) _ (by omega)
    · exact h

theorem nextStart_gt (ps : List String) (maxT ovT : Int) (start : Nat)
    (h : start < ps.length) : start < nextStart ps maxT ovT start := by
  unfold nextStart
  split
  · exact fillWindow_gt ps maxT start h
  · exact lt_of_lt_of_le (Nat.lt_succ_self start) (le_max_right _ _)

theorem nextStart_le_end (ps : List String) (maxT ovT : Int) (start : Nat)
    (h : start < ps.length) :
    nextStart ps maxT ovT start ≤ (fillWindow ps maxT start).1 := by
  unfold nextStart
  split
  · exact le_refl _
  · exact max_le (overlapWalkAux_le ps ovT start _ _ _) (fillWindow_gt ps maxT start h)

theorem windowAt_start (ps : List String) (maxT : Int) (s : Nat) :
    (windowAt ps maxT s).start = s := rfl

theorem windowAt_end (ps : List String) (maxT : Int) (s : Nat) :
    (windowAt ps maxT s).endExclusive = (fillWindow ps maxT s).1 := rfl

theorem windowAt_approx (ps : List String) (maxT : Int) (s : Nat) :
    (windowAt ps maxT s).approxTokens = approxTokenCount (windowAt ps maxT s).text := rfl

theorem windowAt_start_lt_end (ps : List String) (maxT : Int) (s : Nat)
    (h : s < ps.length) : (windowAt ps maxT s).start < (windowAt ps maxT s).endExclusive :=
  fillWindow_gt ps maxT s h

theorem windowAt_end_le (ps : List String) (maxT : Int) (s : Nat)
    (h : s < ps.length) : (windowAt ps maxT s).endExclusive ≤ ps.length :=
  fillWindow_le ps maxT s (le_of_lt h)

theorem windowAt_text (ps : List String) (maxT : Int) (s : Nat)
    (hne : ∀ p ∈ ps, p ≠ "") (h : s < ps.length) :
    (windowAt ps maxT s).text =
      joinBlankLine ((ps.drop s).take ((windowAt ps maxT s).endExclusive - s)) := by
  have hinv := fillAux_inv ps maxT s hne (ps.length - s) s "" (Or.inl ⟨rfl, rfl⟩)
  have hgt := fillWindow_gt ps maxT s h
  rcases hinv with ⟨h1, _⟩ | ⟨_, _, h3⟩
  · exact absurd h1 (by unfold fillWindow at hgt; omega)
  · exact h3

theorem windowAt_budget (ps : List String) (maxT : Int) (s : Nat)
    (h : s + 2 ≤ (windowAt ps maxT s).endExclusive) :
    ((windowAt ps maxT s).approxTokens : Int) ≤ maxT :=
  fillAux_budget ps maxT s (ps.length - s) s "" (fun hs => absurd hs (by omega)) h

theorem loop_mem (ps : List String) (maxT ovT : Int) :
    ∀ fuel start w, w ∈ buildLoopAux ps maxT ovT fuel start →
      ∃ s, start ≤ s ∧ s < ps.length ∧ w = windowAt ps maxT s := by
  intro fuel
  induction fuel with
  | zero => intro start w hw; exact absurd hw (List.not_mem_nil w)
  | succ n ih =>
    intro start w hw
    simp only [buildLoopAux] at hw
    by_cases hlen : start < ps.length
    · rw [if_pos hlen] at hw
      by_cases hlast : ps.length ≤ (fillWindow ps maxT start).1
      · rw [if_pos hlast] at hw
        rcases List.mem_singleton.mp hw with h
        exact ⟨start, le_refl start, hlen, h⟩
      · rw [if_neg hlast] at hw
        rcases List.mem_cons.mp hw with h | h
        · exact ⟨start, le_refl start, hlen, h⟩
        · obtain ⟨s, hs1, hs2, hs3⟩ := ih _ w h
          exact ⟨s, le_trans (le_of_lt (nextStart_gt ps maxT ovT start hlen)) hs1, hs2, hs3⟩
    · rw [if_neg hlen] at hw
      exact absurd hw (List.not_mem_nil w)

theorem loop_head (ps : List String) (maxT ovT : Int) :
    ∀ fuel start w rest, buildLoopAux ps maxT ovT fuel start = w :: rest →
      w = windowAt ps maxT start ∧ start < ps.length := by
  intro fuel start w rest h
  cases fuel with
  | zero => exact absurd h (by simp [buildLoopAux])
  | succ n =>
    simp only [buildLoopAux] at h
    by_cases hlen : start < ps.length
    · rw [if_pos hlen] at h
      by_cases hlast : ps.length ≤ (fillWindow ps maxT start).1
      · rw [if_pos hlast] at h
        exact ⟨(List.cons.injEq _ _ _ _ ▸ h).1.symm ▸ rfl, hlen⟩
      · rw [if_neg hlast] at h
        exact ⟨((List.cons.injEq _ _ _ _).mp h).1.symm, hlen⟩
    · rw [if_neg hlen] at h
      exact absurd h (by simp)

theorem loop_chain (ps : List String) (maxT ovT : Int) :
    ∀ fuel start, List.Chain'
      (fun a b => a.start < b.start ∧ b.start ≤ a.endExclusive)
      (buildLoopAux ps maxT ovT fuel start) := by
  intro fuel
  induction fuel with
  | zero => intro start; exact List.chain'_nil
  | succ n ih =>
    intro start
    simp only [buildLoopAux]
    split
    · rename_i hlen
      split
      · exact List.chain'_singleton _
      · rename_i hlast
        refine List.chain'_cons'.mpr ⟨?_, ih _⟩
        intro y hy
        rcases hrest : buildLoopAux ps maxT ovT n (nextStart ps maxT ovT start) with
          _ | ⟨w2, rest2⟩
        · rw [hrest] at hy; exact absurd hy (by simp)
        · rw [hrest] at hy
          simp only [List.head?_cons, Option.mem_some_iff] at hy
          obtain ⟨hw2, hns⟩ := loop_head ps maxT ovT n _ w2 rest2 hrest
          subst hy; subst hw2
          rw [windowAt_start]
          exact ⟨nextStart_gt ps maxT ovT start hlen,
            nextStart_le_end ps maxT ovT start hlen⟩
    · exact List.chain'_nil

theorem loop_length (ps : List String) (maxT ovT : Int) :
    ∀ fuel start, (buildLoopAux ps maxT ovT fuel start).length ≤ ps.length - start := by
  intro fuel
  induction fuel with
  | zero => intro start; simp [buildLoopAux]
  | succ n ih =>
    intro start
    simp only [buildLoopAux]
    split
    · rename_i hlen
      split
      · simpa using (by omega : 1 ≤ ps.length - start)
      · rename_i hlast
        have h1 := ih (nextStart ps maxT ovT start)
        have h2 := nextStart_gt ps maxT ovT start hlen
        simp only [List.length_cons]
        omega
    · simp

theorem loop_last (ps : List String) (maxT ovT : Int) :
    ∀ fuel start, ps.length - start ≤ fuel → start < ps.length →
      ∃ w, (buildLoopAux ps maxT ovT fuel start).getLast? = some w ∧
        w.endExclusive = ps.length := by
  intro fuel
  induction fuel with
  | zero => intro start hf hs; omega
  | succ n ih =>
    intro start hf hs
    simp only [buildLoopAux, if_pos hs]
    by_cases hlast : ps.length ≤ (fillWindow ps maxT start).1
    · rw [if_pos hlast]
      refine ⟨windowAt ps maxT start, rfl, ?_⟩
      have := fillWindow_le ps maxT start (le_of_lt hs)
      rw [windowAt_end]
      omega
    · rw [if_neg hlast]
      have hns1 := nextStart_gt ps maxT ovT start hs
      have hns2 := nextStart_le_end ps maxT ovT start hs
      have hnslen : nextStart ps maxT ovT start < ps.length := by omega
      obtain ⟨w, hw1, hw2⟩ := ih (nextStart ps maxT ovT start) (by omega) hnslen
      refine ⟨w, ?_, hw2⟩
      rcases hrest : buildLoopAux ps maxT ovT n (nextStart ps maxT ovT start) with
        _ | ⟨w2, rest2⟩
      · rw [hrest] at hw1; exact absurd hw1 (by simp)
      · rw [hrest] at hw1
        rw [List.getLast?_cons_cons]
        exact hw1

theorem loop_cover (ps : List String) (maxT ovT : Int) :
    ∀ fuel start, ps.length - start ≤ fuel → ∀ i, start ≤ i → i < ps.length →
      ∃ w ∈ buildLoopAux ps maxT ovT fuel start, w.start ≤ i ∧ i < w.endExclusive := by
  intro fuel
  induction fuel with
  | zero => intro start hf i hi1 hi2; omega
  | succ n ih =>
    intro start hf i hi1 hi2
    have hs : start < ps.length := by omega
    simp only [buildLoopAux, if_pos hs]
    by_cases hlast : ps.length ≤ (fillWindow ps maxT start).1
    · rw [if_pos hlast]
      refine ⟨windowAt ps maxT start, List.mem_singleton_self _, hi1, ?_⟩
      rw [windowAt_end]; omega
    · rw [if_neg hlast]
      by_cases hcur : i < (fillWindow ps maxT start).1
      · exact ⟨windowAt ps maxT start, List.mem_cons_self _ _, hi1, hcur⟩
      · have hns1 := nextStart_gt ps maxT ovT start hs
        have hns2 := nextStart_le_end ps maxT ovT start hs
        obtain ⟨w, hw1, hw2⟩ := ih (nextStart ps maxT ovT start) (by omega) i (by omega) hi2
        exact ⟨w, List.mem_cons_of_mem _ hw1, hw2⟩

theorem loop_stable (ps : List String) (maxT ovT : Int) :
    ∀ fuel fuel' start, ps.length - start ≤ fuel → ps.length - start ≤ fuel' →
      buildLoopAux ps maxT ovT fuel start = buildLoopAux ps maxT ovT fuel' start := by
  intro fuel
  induction fuel with
  | zero =>
    intro fuel' start hf hf'
    have hs : ¬ start < ps.length := by omega
    cases fuel' with
    | zero => rfl
    | succ m => simp [buildLoopAux, if_neg hs]
  | succ n ih =>
    intro fuel' start hf hf'
    by_cases hs : start < ps.length
    · cases fuel' with
      | zero => omega
      | succ m =>
        simp only [buildLoopAux, if_pos hs]
        by_cases hlast : ps.length ≤ (fillWindow ps maxT start).1
        · rw [if_pos hlast, if_pos hlast]
        · rw [if_neg hlast, if_neg hlast]
          have hns1 := nextStart_gt ps maxT ovT start hs
          rw [ih m (nextStart ps maxT ovT start) (by omega) (by omega)]
    · cases fuel' with
      | zero => simp [buildLoopAux, if_neg hs]
      | succ m => simp [buildLoopAux, if_neg hs]

theorem loop_tile (ps : List String) (maxT : Int) :
    ∀ fuel start, List.Chain'
      (fun a b => b.start = a.endExclusive)
      (buildLoopAux ps maxT 0 fuel start) := by
  intro fuel
  induction fuel with
  | zero => intro start; exact List.chain'_nil
  | succ n ih =>
    intro start
    simp only [buildLoopAux]
    split
    · rename_i hlen
      split
      · exact List.chain'_singleton _
      · rename_i hlast
        refine List.chain'_cons'.mpr ⟨?_, ih _⟩
        intro y hy
        rcases hrest : buildLoopAux ps maxT 0 n (nextStart ps maxT 0 start) with
          _ | ⟨w2, rest2⟩
        · rw [hrest] at hy; exact absurd hy (by simp)
        · rw [hrest] at hy
          simp only [List.head?_cons, Option.mem_some_iff] at hy
          obtain ⟨hw2, _⟩ := loop_head ps maxT 0 n _ w2 rest2 hrest
          subst hy; subst hw2
          rw [windowAt_start, windowAt_end]
          simp [nextStart]
    · exact List.chain'_nil

theorem loop_pairwise_disjoint (ps : List String) (maxT : Int) :
    ∀ fuel start, List.Pairwise
      (fun a b => a.endExclusive ≤ b.start)
      (buildLoopAux ps maxT 0 fuel start) := by
  intro fuel
  induction fuel with
  | zero => intro start; exact List.Pairwise.nil
  | succ n ih =>
    intro start
    simp only [buildLoopAux]
    split
    · rename_i hlen
      split
      · exact List.pairwise_singleton _ _
      · rename_i hlast
        refine List.pairwise_cons.mpr ⟨?_, ih _⟩
        intro b hb
        obtain ⟨s, hs1, hs2, hs3⟩ := loop_mem ps maxT 0 n _ b hb
        subst hs3
        rw [windowAt_start, windowAt_end]
        have : nextStart ps maxT 0 start = (fillWindow ps maxT start).1 := by
          simp [nextStart]
        omega
    · exact List.Pairwise.nil

/-- With valid configuration bounds, `buildOverlappedWindows` returns the
windows of the main loop started at cursor 0 with fuel `ps.length`. -/
theorem buildOverlappedWindows_ok (ps : List String) (maxT ovT : Int)
    (hmax : 0 < maxT) (hov : 0 ≤ ovT) (hlt : ovT < maxT) :
    buildOverlappedWindows ps maxT ovT = .ok (buildLoopAux ps maxT ovT ps.length 0) := by
  unfold buildOverlappedWindows
  rw [if_neg (by omega), if_neg (by omega), if_neg (by omega)]

theorem loop_cons_of_lt (ps : List String) (maxT ovT : Int) (fuel start : Nat)
    (hf : 1 ≤ fuel) (hs : start < ps.length) :
    ∃ rest, buildLoopAux ps maxT ovT fuel start = windowAt ps maxT start :: rest := by
  cases fuel with
  | zero => omega
  | succ n =>
    simp only [buildLoopAux, if_pos hs]
    by_cases hlast : ps.length ≤ (fillWindow ps maxT start).1
    · rw [if_pos hlast]; exact ⟨[], rfl⟩
    · rw [if_neg hlast]; exact ⟨_, rfl⟩

theorem ok_out_eq (ps : List String) (maxT ovT : Int) (ws : List Window)
    (hmax : 0 < maxT) (hov : 0 ≤ ovT) (hlt : ovT < maxT)
    (hok : buildOverlappedWindows ps maxT ovT = .ok ws) :
    ws = buildLoopAux ps maxT ovT ps.length 0 := by
  have h1 := buildOverlappedWindows_ok ps maxT ovT hmax hov hlt
  have h2 := hok.symm.trans h1
  injection h2

/-- C1: for every paragraph sequence and every valid `(maxTokens, overlapTokens)`
configuration, `buildOverlappedWindows` terminates after at most
`paragraphCount` iterations of its outer loop (fuel `ps.length` is already
stable: any larger fuel produces the same list), emits at most
`paragraphCount` windows, and the emitted window `start` values are strictly
increasing. -/
theorem windowBuilder_forward_progress (ps : List String) (maxT ovT : Int)
    (ws : List Window) (hmax : 0 < maxT) (hov : 0 ≤ ovT) (hlt : ovT < maxT)
    (hok : buildOverlappedWindows ps maxT ovT = .ok ws) :
    ws.length ≤ ps.length ∧
    List.Chain' (fun a b => a.start < b.start) ws ∧
    ∀ fuel, ps.length ≤ fuel → buildLoopAux ps maxT ovT fuel 0 = ws := by
  have hws := ok_out_eq ps maxT ovT ws hmax hov hlt hok
  subst hws
  refine ⟨by simpa using loop_length ps maxT ovT ps.length 0, ?_, ?_⟩
  · exact (loop_chain ps maxT ovT ps.length 0).imp (fun a b h => h.1)
  · intro fuel hfuel
    exact loop_stable ps maxT ovT fuel ps.length 0 (by omega) (by omega)

theorem windowBuilder_forward_progress_witness :
    (([⟨0, 1, "A B C", 3⟩, ⟨1, 2, "D E F G", 4⟩, ⟨2, 3, "H I", 2⟩] : List Window)).length ≤
        (["A B C", "D E F G", "H I"] : List String).length ∧
    List.Chain' (fun a b => a.start < b.start)
      ([⟨0, 1, "A B C", 3⟩, ⟨1, 2, "D E F G", 4⟩, ⟨2, 3, "H I", 2⟩] : List Window) ∧
    ∀ fuel, (["A B C", "D E F G", "H I"] : List String).length ≤ fuel →
      buildLoopAux ["A B C", "D E F G", "H I"] 5 2 fuel 0 =
        [⟨0, 1, "A B C", 3⟩, ⟨1, 2, "D E F G", 4⟩, ⟨2, 3, "H I", 2⟩] :=
  windowBuilder_forward_progress ["A B C", "D E F G", "H I"] 5 2
    [⟨0, 1, "A B C", 3⟩, ⟨1, 2, "D E F G", 4⟩, ⟨2, 3, "H I", 2⟩]
    (by decide) (by decide) (by decide) (by rfl)

/-- C2: for every paragraph sequence and valid configuration, the emitted
windows cover every paragraph index at least once; the first window starts at
0, each subsequent window starts no later than the previous window's
`endExclusive`, and the final window's `endExclusive` equals the paragraph
count. -/
theorem windowBuilder_coverage (ps : List String) (maxT ovT : Int)
    (ws : List Window) (hmax : 0 < maxT) (hov : 0 ≤ ovT) (hlt : ovT < maxT)
    (hok : buildOverlappedWindows ps maxT ovT = .ok ws) :
    (∀ i, i < ps.length → ∃ w ∈ ws, w.start ≤ i ∧ i < w.endExclusive) ∧
    (ps ≠ [] → ∃ rest, ws = windowAt ps maxT 0 :: rest ∧ (windowAt ps maxT 0).start = 0) ∧
    List.Chain' (fun a b => b.start ≤ a.endExclusive) ws ∧
    (ps ≠ [] → ∃ w, ws.getLast? = some w ∧ w.endExclusive = ps.length) := by
  have hws := ok_out_eq ps maxT ovT ws hmax hov hlt hok
  subst hws
  refine ⟨?_, ?_, ?_, ?_⟩
  · intro i hi
    exact loop_cover ps maxT ovT ps.length 0 (by omega) i (Nat.zero_le i) hi
  · intro hne
    have hpos : 0 < ps.length := List.length_pos.mpr hne
    obtain ⟨rest, hrest⟩ := loop_cons_of_lt ps maxT ovT ps.length 0 (by omega) hpos
    exact ⟨rest, hrest, rfl⟩
  · exact (loop_chain ps maxT ovT ps.length 0).imp (fun a b h => h.2)
  · intro hne
    have hpos : 0 < ps.length := List.length_pos.mpr hne
    exact loop_last ps maxT ovT ps.length 0 (by omega) hpos

theorem windowBuilder_coverage_witness :
    ∃ w ∈ ([⟨0, 1, "A B C", 3⟩, ⟨1, 2, "D E F G", 4⟩, ⟨2, 3, "H I", 2⟩] : List Window),
      w.start ≤ 1 ∧ 1 < w.endExclusive :=
  (windowBuilder_coverage ["A B C", "D E F G", "H I"] 5 2
    [⟨0, 1, "A B C", 3⟩, ⟨1, 2, "D E F G", 4⟩, ⟨2, 3, "H I", 2⟩]
    (by decide) (by decide) (by decide) (by rfl)).1 1 (by decide)

/-- C3: every window emitted by `buildOverlappedWindows` contains at least one
paragraph (`start < endExclusive`), even when a single paragraph alone exceeds
the budget; and any window with two or more paragraphs has
`approxTokens ≤ maxTokens` — only a single-paragraph window may exceed the
budget. -/
theorem windowBuilder_min_one_paragraph (ps : List String) (maxT ovT : Int)
    (ws : List Window) (hmax : 0 < maxT) (hov : 0 ≤ ovT) (hlt : ovT < maxT)
    (hok : buildOverlappedWindows ps maxT ovT = .ok ws)
    (w : Window) (hw : w ∈ ws) :
    w.start < w.endExclusive ∧
    (w.start + 2 ≤ w.endExclusive → (w.approxTokens : Int) ≤ maxT) := by
  have hws := ok_out_eq ps maxT ovT ws hmax hov hlt hok
  subst hws
  obtain ⟨s, _, hs2, hs3⟩ := loop_mem ps maxT ovT ps.length 0 w hw
  subst hs3
  exact ⟨windowAt_start_lt_end ps maxT s hs2, fun h => windowAt_budget ps maxT s h⟩

theorem windowBuilder_min_one_paragraph_witness :
    (⟨1, 2, "D E F G", 4⟩ : Window).start < (⟨1, 2, "D E F G", 4⟩ : Window).endExclusive ∧
    ((⟨1, 2, "D E F G", 4⟩ : Window).start + 2 ≤ (⟨1, 2, "D E F G", 4⟩ : Window).endExclusive →
      ((⟨1, 2, "D E F G", 4⟩ : Window).approxTokens : Int) ≤ 5) :=
  windowBuilder_min_one_paragraph ["A B C", "D E F G", "H I"] 5 2
    [⟨0, 1, "A B C", 3⟩, ⟨1, 2, "D E F G", 4⟩, ⟨2, 3, "H I", 2⟩]
    (by decide) (by decide) (by decide) (by rfl)
    ⟨1, 2, "D E F G", 4⟩ (by decide)

/-- C4: every window emitted by `buildOverlappedWindows` satisfies
`0 ≤ start < endExclusive ≤ paragraphCount` (`start` is a `Nat`, so `0 ≤ start`
holds by type), its `text` is the paragraphs of `[start, endExclusive)` joined
with a blank-line separator, and its `approxTokens` is the token estimate of
that text.  Paragraphs are non-empty strings, as guaranteed by the paragraph
splitter. -/
theorem windowBuilder_window_invariants (ps : List String) (maxT ovT : Int)
    (ws : List Window) (hmax : 0 < maxT) (hov : 0 ≤ ovT) (hlt : ovT < maxT)
    (hok : buildOverlappedWindows ps maxT ovT = .ok ws)
    (hne : ∀ p ∈ ps, p ≠ "") (w : Window) (hw : w ∈ ws) :
    w.start < w.endExclusive ∧ w.endExclusive ≤ ps.length ∧
    w.text = joinBlankLine ((ps.drop w.start).take (w.endExclusive - w.start)) ∧
    w.approxTokens = approxTokenCount w.text := by
  have hws := ok_out_eq ps maxT ovT ws hmax hov hlt hok
  subst hws
  obtain ⟨s, _, hs2, hs3⟩ := loop_mem ps maxT ovT ps.length 0 w hw
  subst hs3
  exact ⟨windowAt_start_lt_end ps maxT s hs2, windowAt_end_le ps maxT s hs2,
    windowAt_text ps maxT s hne hs2, windowAt_approx ps maxT s⟩

theorem windowBuilder_window_invariants_witness :
    (⟨0, 1, "A B C", 3⟩ : Window).start < (⟨0, 1, "A B C", 3⟩ : Window).endExclusive ∧
    (⟨0, 1, "A B C", 3⟩ : Window).endExclusive ≤ (["A B C", "D E F G", "H I"] : List String).length ∧
    (⟨0, 1, "A B C", 3⟩ : Window).text =
      joinBlankLine (((["A B C", "D E F G", "H I"] : List String).drop
        (⟨0, 1, "A B C", 3⟩ : Window).start).take
        ((⟨0, 1, "A B C", 3⟩ : Window).endExclusive - (⟨0, 1, "A B C", 3⟩ : Window).start)) ∧
    (⟨0, 1, "A B C", 3⟩ : Window).approxTokens =
      approxTokenCount (⟨0, 1, "A B C", 3⟩ : Window).text :=
  windowBuilder_window_invariants ["A B C", "D E F G", "H I"] 5 2
    [⟨0, 1, "A B C", 3⟩, ⟨1, 2, "D E F G", 4⟩, ⟨2, 3, "H I", 2⟩]
    (by decide) (by decide) (by decide) (by rfl)
    (by decide) ⟨0, 1, "A B C", 3⟩ (by decide)

/-- C5: `buildOverlappedWindows` rejects `maxTokens ≤ 0`, `overlapTokens < 0`
and `overlapTokens ≥ maxTokens` with an error before emitting any window, and
raises no error for valid bounds. -/
theorem windowBuilder_config_validation (ps : List String) (maxT ovT : Int) :
    ((maxT ≤ 0 ∨ ovT < 0 ∨ maxT ≤ ovT) →
      ∃ msg, buildOverlappedWindows ps maxT ovT = .error msg) ∧
    (0 < maxT → 0 ≤ ovT → ovT < maxT →
      ∃ ws, buildOverlappedWindows ps maxT ovT = .ok ws) := by
  constructor
  · intro hbad
    unfold buildOverlappedWindows
    by_cases h1 : maxT ≤ 0
    · rw [if_pos h1]; exact ⟨_, rfl⟩
    · rw [if_neg h1]
      by_cases h2 : ovT < 0
      · rw [if_pos h2]; exact ⟨_, rfl⟩
      · rw [if_neg h2]
        rw [if_pos (by omega : ovT ≥ maxT)]
        exact ⟨_, rfl⟩
  · intro hmax hov hlt
    exact ⟨_, buildOverlappedWindows_ok ps maxT ovT hmax hov hlt⟩

theorem windowBuilder_config_validation_witness :
    ∃ msg, buildOverlappedWindows ["A B C"] 0 0 = .error msg :=
  (windowBuilder_config_validation ["A B C"] 0 0).1 (Or.inl (by decide))

/-- C6: on the paragraphs `["A B C", "D E F G", "H I"]` with `maxTokens = 5`
and `overlapTokens = 2`, `buildOverlappedWindows` returns exactly the three
single-paragraph windows `(0, 1, 3 tokens)`, `(1, 2, 4 tokens)` and
`(2, 3, 2 tokens)`. -/
theorem windowBuilder_concrete_scenario :
    buildOverlappedWindows ["A B C", "D E F G", "H I"] 5 2 =
      .ok [⟨0, 1, "A B C", 3⟩, ⟨1, 2, "D E F G", 4⟩, ⟨2, 3, "H I", 2⟩] := by
  rfl

/-- C7: with `overlapTokens = 0` each subsequent window starts exactly at the
previous window's `endExclusive`, so the windows tile the paragraph sequence
and no paragraph index belongs to two windows; the empty paragraph sequence
yields zero windows without an error. -/
theorem windowBuilder_zero_overlap_tiling (ps : List String) (maxT : Int)
    (ws : List Window) (hmax : 0 < maxT)
    (hok : buildOverlappedWindows ps maxT 0 = .ok ws) :
    List.Chain' (fun a b => b.start = a.endExclusive) ws ∧
    List.Pairwise (fun a b => ∀ i, a.start ≤ i → i < a.endExclusive →
      ¬ (b.start ≤ i ∧ i < b.endExclusive)) ws ∧
    buildOverlappedWindows ([] : List String) maxT 0 = .ok [] := by
  have hws := ok_out_eq ps maxT 0 ws hmax (le_refl 0) hmax hok
  subst hws
  refine ⟨loop_tile ps maxT ps.length 0, ?_, ?_⟩
  · exact (loop_pairwise_disjoint ps maxT ps.length 0).imp
      (fun h i hi1 hi2 hb => by omega)
  · rw [buildOverlappedWindows_ok ([] : List String) maxT 0 hmax (le_refl 0) hmax]
    rfl

theorem windowBuilder_zero_overlap_tiling_witness :
    List.Chain' (fun a b => b.start = a.endExclusive)
      ([⟨0, 2, "A B C\n\nD E", 5⟩, ⟨2, 3, "H I", 2⟩] : List Window) ∧
    List.Pairwise (fun a b => ∀ i, a.start ≤ i → i < a.endExclusive →
      ¬ (b.start ≤ i ∧ i < b.endExclusive))
      ([⟨0, 2, "A B C\n\nD E", 5⟩, ⟨2, 3, "H I", 2⟩] : List Window) ∧
    buildOverlappedWindows ([] : List String) 5 0 = .ok [] :=
  windowBuilder_zero_overlap_tiling ["A B C", "D E", "H I"] 5
    [⟨0, 2, "A B C\n\nD E", 5⟩, ⟨2, 3, "H I", 2⟩] (by decide) (by rfl)

/-! ### Chunk Record Assembler (`02_chunk_markdown.ts`, `main`, lines 214-285) -/

/-- The persisted chunk fields relevant to identity and hashing
(`ChunkRecord` trimmed to the fields the assembler computes itself;
book/chapter provenance is copied verbatim from metadata and omitted here). -/
structure ChunkRec where
  chunkId : String
  index : Nat
  approxTokens : Nat
  startParagraph : Nat
  endParagraphExclusive : Nat
  sha256 : String
  text : String
deriving DecidableEq, Repr

/-- JS `String.prototype.padStart` restricted to a single pad character. -/
def padStart (s : String) (n : Nat) (c : Char) : String :=
  if n ≤ s.length then s else String.mk (List.replicate (n - s.length) c) ++ s

/-- The chunk id template from line 248:
`chunk_${bookSlug}_${String(chunkIndex).padStart(6, '0')}`. -/
def mkChunkId (slug : String) (idx : Nat) : String :=
  "chunk_" ++ slug ++ "_" ++ padStart (Nat.repr idx) 6 '0'

/-- The record built for one window at global index `idx`
(lines 245-280; `sha` stands for the external `sha256Hex`). -/
def chunkRecOf (sha : String → String) (slug : String) (idx : Nat) (w : Window) : ChunkRec :=
  { chunkId := mkChunkId slug idx, index := idx, approxTokens := w.approxTokens,
    startParagraph := w.start, endParagraphExclusive := w.endExclusive,
    sha256 := sha (trimStr w.text), text := trimStr w.text }

/-- The per-chapter window loop (lines 244-284): windows whose trimmed text is
empty are skipped without consuming an index; every other window receives the
current global counter value, which is then incremented.  Returns the final
counter and the records emitted for this chapter. -/
def assembleChapterWindows (sha : String → String) (slug : String) :
    Nat → List Window → Nat × List ChunkRec
  | idx, [] => (idx, [])
  | idx, w :: ws =>
    if trimStr w.text = "" then assembleChapterWindows sha slug idx ws
    else
      ((assembleChapterWindows sha slug (idx + 1) ws).1,
        chunkRecOf sha slug idx w :: (assembleChapterWindows sha slug (idx + 1) ws).2)

/-- The whole-book assembly (lines 214-285): chapters are sorted by their
`order` field (a stable ascending sort models `sort((a, b) => a.order - b.order)`)
and processed with one global chunk counter starting at 0. -/
def assembleBook (sha : String → String) (slug : String)
    (chapters : List (Int × List Window)) : List ChunkRec :=
  ((chapters.mergeSort (fun a b => a.1 ≤ b.1)).foldl
    (fun acc ch =>
      ((assembleChapterWindows sha slug acc.1 ch.2).1,
        acc.2 ++ (assembleChapterWindows sha slug acc.1 ch.2).2))
    (0, [])).2

theorem assembleChapterWindows_eq (sha : String → String) (slug : String) :
    ∀ (ws : List Window) (idx : Nat),
      assembleChapterWindows sha slug idx ws =
        (idx + (ws.filter (fun w => ¬ trimStr w.text = "")).length,
          (List.enumFrom idx (ws.filter (fun w => ¬ trimStr w.text = ""))).map
            (fun p => chunkRecOf sha slug p.1 p.2)) := by
  intro ws
  induction ws with
  | nil => intro idx; simp [assembleChapterWindows]
  | cons w rest ih =>
    intro idx
    by_cases h : trimStr w.text = ""
    · rw [List.filter_cons_of_neg (by simpa using h)]
      simp only [assembleChapterWindows, if_pos h]
      exact ih idx
    · rw [List.filter_cons_of_pos (by simpa using h)]
      simp only [assembleChapterWindows, if_neg h]
      rw [ih (idx + 1)]
      simp only [List.enumFrom, List.map_cons, List.length_cons]
      rw [Prod.ext_iff]
      exact ⟨by omega, rfl⟩

theorem assembleFold_eq (sha : String → String) (slug : String) :
    ∀ (chs : List (Int × List Window)) (idx : Nat) (acc : List ChunkRec),
      chs.foldl (fun acc2 ch =>
        ((assembleChapterWindows sha slug acc2.1 ch.2).1,
          acc2.2 ++ (assembleChapterWindows sha slug acc2.1 ch.2).2)) (idx, acc) =
      (idx + ((chs.map (fun ch => ch.2)).flatten.filter (fun w => ¬ trimStr w.text = "")).length,
        acc ++ (List.enumFrom idx ((chs.map (fun ch => ch.2)).flatten.filter
          (fun w => ¬ trimStr w.text = ""))).map (fun p => chunkRecOf sha slug p.1 p.2)) := by
  intro chs
  induction chs with
  | nil => intro idx acc; simp
  | cons ch rest ih =>
    intro idx acc
    simp only [List.foldl_cons]
    rw [assembleChapterWindows_eq]
    simp only []
    rw [ih]
    simp only [List.map_cons, List.flatten_cons, List.filter_append, List.enumFrom_append,
      List.map_append, List.length_append, List.append_assoc]
    rw [Prod.ext_iff]
    exact ⟨by omega, rfl⟩

theorem assembleBook_eq (sha : String → String) (slug : String)
    (chapters : List (Int × List Window)) :
    assembleBook sha slug chapters =
      (List.enum (((chapters.mergeSort (fun a b => a.1 ≤ b.1)).map
        (fun ch => ch.2)).flatten.filter (fun w => ¬ trimStr w.text = ""))).map
        (fun p => chunkRecOf sha slug p.1 p.2) := by
  unfold assembleBook
  rw [assembleFold_eq]
  simp [List.enum]

/-- C8: the Chunk Record Assembler uses a single counter across the whole
book: over the chapters sorted by `order` and their windows in emission
order, the windows with non-empty trimmed text receive consecutive indices
starting at 0 (never reset per chapter); each record's hash is the hash of
the trimmed text, and `chunkId` is `chunk_` ++ slug ++ `_` ++ the index
zero-padded to 6 digits; empty-trimmed windows produce no record and consume
no index. -/
theorem chunkAssembler_global_indexing (sha : String → String) (slug : String)
    (chapters : List (Int × List Window)) :
    assembleBook sha slug chapters =
      (List.enum (((chapters.mergeSort (fun a b => a.1 ≤ b.1)).map
        (fun ch => ch.2)).flatten.filter (fun w => ¬ trimStr w.text = ""))).map
        (fun p => chunkRecOf sha slug p.1 p.2) ∧
    (assembleBook sha slug chapters).map (fun r => r.index) =
      List.range (((chapters.mergeSort (fun a b => a.1 ≤ b.1)).map
        (fun ch => ch.2)).flatten.filter (fun w => ¬ trimStr w.text = "")).length ∧
    ∀ r ∈ assembleBook sha slug chapters,
      r.chunkId = "chunk_" ++ slug ++ "_" ++ padStart (Nat.repr r.index) 6 '0' ∧
      r.sha256 = sha r.text := by
  refine ⟨assembleBook_eq sha slug chapters, ?_, ?_⟩
  · rw [assembleBook_eq, List.map_map]
    have hcomp : ((fun r : ChunkRec => r.index) ∘ fun p : Nat × Window =>
        chunkRecOf sha slug p.1 p.2) = Prod.fst := rfl
    rw [hcomp, List.enum_map_fst]
  · intro r hr
    rw [assembleBook_eq] at hr
    obtain ⟨p, hp, hpr⟩ := List.mem_map.mp hr
    subst hpr
    exact ⟨rfl, rfl⟩

theorem chunkAssembler_global_indexing_witness :
    (assembleBook (fun s => s) "bk"
        ([(1, [⟨0, 1, "B", 1⟩]), (0, [⟨0, 1, " ", 0⟩, ⟨0, 1, "A", 1⟩])] :
          List (Int × List Window))).map
      (fun r => r.index) =
    List.range (((([(1, [⟨0, 1, "B", 1⟩]), (0, [⟨0, 1, " ", 0⟩, ⟨0, 1, "A", 1⟩])] :
        List (Int × List Window)).mergeSort (fun a b => a.1 ≤ b.1)).map
      (fun ch => ch.2)).flatten.filter (fun w => ¬ trimStr w.text = "")).length :=
  (chunkAssembler_global_indexing (fun s => s) "bk"
    ([(1, [⟨0, 1, "B", 1⟩]), (0, [⟨0, 1, " ", 0⟩, ⟨0, 1, "A", 1⟩])] :
      List (Int × List Window))).2.1

/-! ### Ingest Writer (`04_ingest_pg.ts`, `main`, lines 273-349) -/

/-- The fields of a parsed chunk record that the ingest loop inspects
(`rec.chunkId`, `rec.book?.slug`, `rec.text`; a missing or empty field is
modelled as the empty string, which is falsy in JS exactly like `undefined`). -/
structure IngestRec where
  chunkId : String
  bookSlug : String
  text : String
deriving DecidableEq, Repr

/-- The external collaborators of one file's ingest pass: `parse` models
`JSON.parse` (`none` = malformed line), `upsertOk` models the batched
`INSERT ... ON CONFLICT` round-trip (`some err` = the query threw `err`),
`batchSize` is `--batchSize`, `filePath` the file being read. -/
structure IngestCfg where
  parse : String → Option IngestRec
  upsertOk : List IngestRec → Option String
  batchSize : Nat
  filePath : String

/-- The mutable state of the ingest loop: the `seenBooks` set, the `stats`
counters and notes, and the pending `batch`. -/
structure IngestSt where
  seenBooks : List String
  booksUpserted : Nat
  chunksUpserted : Nat
  chunksFailed : Nat
  notes : List String
  batch : List IngestRec
deriving Repr

/-- `flush` wrapped in the `try`/`catch` of its call sites (lines 278-283,
313-321, 343-348): an empty batch is a no-op; a successful upsert counts the
batch into `chunksUpserted`; a failed upsert counts it into `chunksFailed`,
appends a note, and clears the batch so processing continues. -/
def attemptFlush (cfg : IngestCfg) (m : String) (st : IngestSt) : IngestSt :=
  if st.batch.isEmpty then st
  else
    match cfg.upsertOk st.batch with
    | none =>
      { st with
        chunksUpserted := st.chunksUpserted + st.batch.length
        batch := [] }
    | some err =>
      { st with
        chunksFailed := st.chunksFailed + st.batch.length
        notes := st.notes ++ [m ++ cfg.filePath ++ ": " ++ err]
        batch := [] }

/-- Book upsert once per distinct slug (lines 305-310). -/
def recordBook (st : IngestSt) (slug : String) : IngestSt :=
  if st.seenBooks.contains slug then st
  else { st with seenBooks := slug :: st.seenBooks, booksUpserted := st.booksUpserted + 1 }

/-- `batch.push(rec)` (line 312). -/
def pushBatch (st : IngestSt) (r : IngestRec) : IngestSt :=
  { st with batch := st.batch ++ [r] }

/-- Processing of one complete line of a chunk file (lines 288-322): blank
lines are skipped, unparsable lines are skipped, records missing any of
`chunkId`, `book.slug`, `text` are skipped; a valid record is batched (after
the once-per-slug book upsert) and a full batch is flushed with its failure
caught and counted. -/
def processLine (cfg : IngestCfg) (st : IngestSt) (line : String) : IngestSt :=
  if trimStr line = "" then st
  else
    match cfg.parse (trimStr line) with
    | none => st
    | some r =>
      if r.chunkId = "" ∨ r.bookSlug = "" ∨ r.text = "" then st
      else if cfg.batchSize ≤ (pushBatch (recordBook st r.bookSlug) r).batch.length then
        attemptFlush cfg "Failed batch insert for " (pushBatch (recordBook st r.bookSlug) r)
      else pushBatch (recordBook st r.bookSlug) r

/-- Processing of the final buffered line without a trailing newline
(lines 326-341): same parse/validity checks, but the record is only pushed —
the final flush happens afterwards. -/
def processLast (cfg : IngestCfg) (st : IngestSt) (last : String) : IngestSt :=
  if trimStr last = "" then st
  else
    match cfg.parse (trimStr last) with
    | none => st
    | some r =>
      if r.chunkId = "" ∨ r.bookSlug = "" ∨ r.text = "" then st
      else pushBatch (recordBook st r.bookSlug) r

/-- One file's ingest pass: all complete lines, the final buffered line, then
the final flush (lines 285-349). -/
def ingestFile (cfg : IngestCfg) (st : IngestSt) (lines : List String) (last : String) :
    IngestSt :=
  attemptFlush cfg "Failed final batch insert for "
    (processLast cfg (lines.foldl (processLine cfg) st) last)

/-- Whether a line survives the parse and validity checks and is batched. -/
def lineValid (cfg : IngestCfg) (line : String) : Bool :=
  if trimStr line = "" then false
  else
    match cfg.parse (trimStr line) with
    | none => false
    | some r => if r.chunkId = "" ∨ r.bookSlug = "" ∨ r.text = "" then false else true

theorem recordBook_chunksUpserted (st : IngestSt) (s : String) :
    (recordBook st s).chunksUpserted = st.chunksUpserted := by
  unfold recordBook; split <;> rfl

theorem recordBook_chunksFailed (st : IngestSt) (s : String) :
    (recordBook st s).chunksFailed = st.chunksFailed := by
  unfold recordBook; split <;> rfl

theorem recordBook_batch (st : IngestSt) (s : String) :
    (recordBook st s).batch = st.batch := by
  unfold recordBook; split <;> rfl

theorem recordBook_notes (st : IngestSt) (s : String) :
    (recordBook st s).notes = st.notes := by
  unfold recordBook; split <;> rfl

theorem attemptFlush_sum (cfg : IngestCfg) (m : String) (st : IngestSt) :
    (attemptFlush cfg m st).chunksUpserted + (attemptFlush cfg m st).chunksFailed +
      (attemptFlush cfg m st).batch.length =
    st.chunksUpserted + st.chunksFailed + st.batch.length := by
  unfold attemptFlush
  split
  · rfl
  · split
    · dsimp only; simp only [List.length_nil]; omega
    · dsimp only; simp only [List.length_nil]; omega

theorem attemptFlush_batch_nil (cfg : IngestCfg) (m : String) (st : IngestSt) :
    (attemptFlush cfg m st).batch = [] := by
  unfold attemptFlush
  split
  · rename_i h; exact List.isEmpty_iff.mp h
  · split <;> rfl

theorem attemptFlush_notes (cfg : IngestCfg) (m : String) (st : IngestSt) :
    ∃ extra, (attemptFlush cfg m st).notes = st.notes ++ extra := by
  unfold attemptFlush
  split
  · exact ⟨[], (List.append_nil _).symm⟩
  · split
    · exact ⟨[], (List.append_nil _).symm⟩
    · exact ⟨_, rfl⟩

theorem processLine_sum (cfg : IngestCfg) (st : IngestSt) (line : String) :
    (processLine cfg st line).chunksUpserted + (processLine cfg st line).chunksFailed +
      (processLine cfg st line).batch.length =
    st.chunksUpserted + st.chunksFailed + st.batch.length +
      (if lineValid cfg line then 1 else 0) := by
  unfold processLine lineValid
  by_cases h1 : trimStr line = ""
  · rw [if_pos h1, if_pos h1]; simp
  · rw [if_neg h1, if_neg h1]
    cases hp : cfg.parse (trimStr line) with
    | none => dsimp only; simp
    | some r =>
      dsimp only
      by_cases h2 : r.chunkId = "" ∨ r.bookSlug = "" ∨ r.text = ""
      · rw [if_pos h2, if_pos h2]; simp
      · rw [if_neg h2, if_neg h2]
        split
        · rw [attemptFlush_sum]
          simp only [pushBatch, recordBook_chunksUpserted, recordBook_chunksFailed,
            recordBook_batch, List.length_append, List.length_cons, List.length_nil, if_true]
          omega
        · simp only [pushBatch, recordBook_chunksUpserted, recordBook_chunksFailed,
            recordBook_batch, List.length_append, List.length_cons, List.length_nil, if_true]
          omega

theorem processLine_notes (cfg : IngestCfg) (st : IngestSt) (line : String) :
    ∃ extra, (processLine cfg st line).notes = st.notes ++ extra := by
  unfold processLine
  by_cases h1 : trimStr line = ""
  · rw [if_pos h1]; exact ⟨[], (List.append_nil _).symm⟩
  · rw [if_neg h1]
    cases hp : cfg.parse (trimStr line) with
    | none => dsimp only; exact ⟨[], (List.append_nil _).symm⟩
    | some r =>
      dsimp only
      by_cases h2 : r.chunkId = "" ∨ r.bookSlug = "" ∨ r.text = ""
      · rw [if_pos h2]; exact ⟨[], (List.append_nil _).symm⟩
      · rw [if_neg h2]
        split
        · obtain ⟨extra, hex⟩ := attemptFlush_notes cfg
            "Failed batch insert for " (pushBatch (recordBook st r.bookSlug) r)
          rw [hex]
          simp only [pushBatch, recordBook_notes]
          exact ⟨extra, rfl⟩
        · simp only [pushBatch, recordBook_notes]
          exact ⟨[], (List.append_nil _).symm⟩

theorem processLine_invalid (cfg : IngestCfg) (st : IngestSt) (line : String)
    (h : lineValid cfg line = false) : processLine cfg st line = st := by
  unfold lineValid at h
  unfold processLine
  by_cases h1 : trimStr line = ""
  · rw [if_pos h1]
  · rw [if_neg h1] at h ⊢
    cases hp : cfg.parse (trimStr line) with
    | none => dsimp only
    | some r =>
      rw [hp] at h
      dsimp only at h ⊢
      by_cases h2 : r.chunkId = "" ∨ r.bookSlug = "" ∨ r.text = ""
      · rw [if_pos h2]
      · rw [if_neg h2] at h
        exact absurd h (by simp)

theorem foldl_processLine_sum (cfg : IngestCfg) :
    ∀ (lines : List String) (st : IngestSt),
      (lines.foldl (processLine cfg) st).chunksUpserted +
        (lines.foldl (processLine cfg) st).chunksFailed +
        (lines.foldl (processLine cfg) st).batch.length =
      st.chunksUpserted + st.chunksFailed + st.batch.length +
        lines.countP (lineValid cfg) := by
  intro lines
  induction lines with
  | nil => intro st; simp
  | cons l rest ih =>
    intro st
    rw [List.foldl_cons, ih (processLine cfg st l), List.countP_cons]
    have := processLine_sum cfg st l
    omega

theorem foldl_processLine_notes (cfg : IngestCfg) :
    ∀ (lines : List String) (st : IngestSt),
      ∃ extra, (lines.foldl (processLine cfg) st).notes = st.notes ++ extra := by
  intro lines
  induction lines with
  | nil => intro st; exact ⟨[], (List.append_nil _).symm⟩
  | cons l rest ih =>
    intro st
    rw [List.foldl_cons]
    obtain ⟨e1, he1⟩ := processLine_notes cfg st l
    obtain ⟨e2, he2⟩ := ih (processLine cfg st l)
    exact ⟨e1 ++ e2, by rw [he2, he1, List.append_assoc]⟩

theorem processLast_sum (cfg : IngestCfg) (st : IngestSt) (last : String) :
    (processLast cfg st last).chunksUpserted + (processLast cfg st last).chunksFailed +
      (processLast cfg st last).batch.length =
    st.chunksUpserted + st.chunksFailed + st.batch.length +
      (if lineValid cfg last then 1 else 0) := by
  unfold processLast lineValid
  by_cases h1 : trimStr last = ""
  · rw [if_pos h1, if_pos h1]; simp
  · rw [if_neg h1, if_neg h1]
    cases hp : cfg.parse (trimStr last) with
    | none => dsimp only; simp
    | some r =>
      dsimp only
      by_cases h2 : r.chunkId = "" ∨ r.bookSlug = "" ∨ r.text = ""
      · rw [if_pos h2, if_pos h2]; simp
      · rw [if_neg h2, if_neg h2]
        simp only [pushBatch, recordBook_chunksUpserted, recordBook_chunksFailed,
          recordBook_batch, List.length_append, List.length_cons, List.length_nil, if_true]
        omega

theorem processLast_notes (cfg : IngestCfg) (st : IngestSt) (last : String) :
    ∃ extra, (processLast cfg st last).notes = st.notes ++ extra := by
  unfold processLast
  by_cases h1 : trimStr last = ""
  · rw [if_pos h1]; exact ⟨[], (List.append_nil _).symm⟩
  · rw [if_neg h1]
    cases hp : cfg.parse (trimStr last) with
    | none => dsimp only; exact ⟨[], (List.append_nil _).symm⟩
    | some r =>
      dsimp only
      by_cases h2 : r.chunkId = "" ∨ r.bookSlug = "" ∨ r.text = ""
      · rw [if_pos h2]; exact ⟨[], (List.append_nil _).symm⟩
      · rw [if_neg h2]
        simp only [pushBatch, recordBook_notes]
        exact ⟨[], (List.append_nil _).symm⟩

/-- C9: the Ingest Writer never aborts on bad input or a failed batch: a line
that fails to parse or lacks any of `chunkId`, `book.slug`, `text` is skipped
with the remaining lines still processed (removing it leaves the run's result
unchanged); over a whole run every batched record is accounted exactly once,
`chunksUpserted + chunksFailed` growing by exactly the number of valid lines,
so a failed batch adds its size to `chunksFailed` and processing continues;
notes are only ever appended, and a failed flush adds the batch's size to
`chunksFailed`, records one note, and clears the batch to continue. -/
theorem ingestWriter_fault_tolerance (cfg : IngestCfg) (st : IngestSt) :
    (∀ line rest last, lineValid cfg line = false →
      ingestFile cfg st (line :: rest) last = ingestFile cfg st rest last) ∧
    (∀ lines last,
      (ingestFile cfg st lines last).chunksUpserted +
        (ingestFile cfg st lines last).chunksFailed =
      st.chunksUpserted + st.chunksFailed + st.batch.length +
        (lines.countP (lineValid cfg) + (if lineValid cfg last then 1 else 0))) ∧
    (∀ lines last, ∃ extra, (ingestFile cfg st lines last).notes = st.notes ++ extra) ∧
    (∀ m err, cfg.upsertOk st.batch = some err → st.batch ≠ [] →
      attemptFlush cfg m st =
        { st with
          chunksFailed := st.chunksFailed + st.batch.length
          notes := st.notes ++ [m ++ cfg.filePath ++ ": " ++ err]
          batch := [] }) := by
  refine ⟨?_, ?_, ?_, ?_⟩
  · intro line rest last h
    unfold ingestFile
    rw [List.foldl_cons, processLine_invalid cfg st line h]
  · intro lines last
    unfold ingestFile
    have h1 := attemptFlush_sum cfg "Failed final batch insert for "
      (processLast cfg (lines.foldl (processLine cfg) st) last)
    have h2 := attemptFlush_batch_nil cfg "Failed final batch insert for "
      (processLast cfg (lines.foldl (processLine cfg) st) last)
    have h3 := processLast_sum cfg (lines.foldl (processLine cfg) st) last
    have h4 := foldl_processLine_sum cfg lines st
    rw [h2] at h1
    simp only [List.length_nil] at h1
    omega
  · intro lines last
    unfold ingestFile
    obtain ⟨e1, he1⟩ := foldl_processLine_notes cfg lines st
    obtain ⟨e2, he2⟩ := processLast_notes cfg (lines.foldl (processLine cfg) st) last
    obtain ⟨e3, he3⟩ := attemptFlush_notes cfg "Failed final batch insert for "
      (processLast cfg (lines.foldl (processLine cfg) st) last)
    exact ⟨e1 ++ (e2 ++ e3), by
      rw [he3, he2, he1, List.append_assoc, List.append_assoc]⟩
  · intro m err hup hne
    unfold attemptFlush
    rw [if_neg (by simp [hne]), hup]

theorem ingestWriter_fault_tolerance_witness :
    ingestFile
      ⟨fun _ => none, fun _ => some "boom", 2, "f.jsonl"⟩
      ⟨[], 0, 0, 0, [], []⟩ ["x", "y"] "" =
    ingestFile
      ⟨fun _ => none, fun _ => some "boom", 2, "f.jsonl"⟩
      ⟨[], 0, 0, 0, [], []⟩ ["y"] "" :=
  (ingestWriter_fault_tolerance
    ⟨fun _ => none, fun _ => some "boom", 2, "f.jsonl"⟩
    ⟨[], 0, 0, 0, [], []⟩).1 "x" ["y"] "" (by rfl)

/-! ### Chapter header injection (`02_chunk_markdown.ts`, `main`, lines 232-242) -/

/-- The `parasWithHeader` computation (lines 233-236): when
`--includeChapterHeader` is set, the synthesized heading is prepended and
every paragraph equal to the heading is filtered out. -/
def headeredParagraphs (includeHeader : Bool) (title : String)
    (paragraphs : List String) : List String :=
  if includeHeader then
    ("# " ++ title) :: paragraphs.filter (fun p => ¬ p = "# " ++ title)
  else paragraphs

/-- C10: with the chapter-header option enabled, the sequence passed to the
window builder begins with the literal heading `"# " ++ title`; no other
element equals the heading — every occurrence of the exact heading anywhere in
the chapter's paragraphs is removed, not only a duplicated first paragraph —
and every paragraph different from the heading is kept. -/
theorem chapterHeader_dedup (title : String) (ps : List String) :
    ∃ tl, headeredParagraphs true title ps = ("# " ++ title) :: tl ∧
      (∀ p ∈ tl, p ≠ "# " ++ title) ∧
      (∀ p ∈ ps, p ≠ "# " ++ title → p ∈ tl) ∧
      (∀ p ∈ tl, p ∈ ps) := by
  refine ⟨ps.filter (fun p => ¬ p = "# " ++ title), rfl, ?_, ?_, ?_⟩
  · intro p hp
    have h := List.mem_filter.mp hp
    simpa using h.2
  · intro p hp hne
    exact List.mem_filter.mpr ⟨hp, by simpa using hne⟩
  · intro p hp
    exact (List.mem_filter.mp hp).1

theorem chapterHeader_dedup_witness :
    ∃ tl, headeredParagraphs true "T" ["# T", "x"] = ("# " ++ "T") :: tl ∧
      (∀ p ∈ tl, p ≠ "# " ++ "T") ∧
      (∀ p ∈ (["# T", "x"] : List String), p ≠ "# " ++ "T" → p ∈ tl) ∧
      (∀ p ∈ tl, p ∈ (["# T", "x"] : List String)) :=
  chapterHeader_dedup "T" ["# T", "x"]

end RagPipeline
